import Mathlib

/-!
Shallow embedding of the `abbadingo` chess bitboard core
(`src/bbdefines.rs`, `src/bitboard.rs`, `src/chessdefines.rs`,
`src/chessarmy.rs`) and verification of the specification claims.

Modelling conventions:
* `u64` bitboard states are modelled as `Nat`; every constructor of the
  library produces values `< 2^64`, and claims that depend on the 64-bit
  width carry that bound as an explicit hypothesis.
* The range-restricted Rust enums `File`, `Rank`, `Cell` are modelled as
  `Fin 8` / `Fin 64`, mirroring their discriminant values.
* `num::FromPrimitive::from_i32 / from_usize` conversions are modelled by
  `Option`-valued range-checked constructors.
* Code that can panic (`Option::unwrap` on `active_cell`) is modelled in
  the `Option` monad: a `none` result marks the panic.
* The `while` loops of `chessarmy.rs` are modelled by structural recursion
  over the list of scanned cell indices (`piece_scan`) or by
  fuel-indexed recursion (`ray_cast`, `pop_count_loop`).  The fuel bounds
  (8 for a ray on an 8x8 board, 64 for the popcount of a `u64`) are not
  reachable before the loop's own exit condition fires, so the recursions
  agree with the unbounded loops on all `u64` states.
-/

set_option maxRecDepth 4000

-- ==========================================================================
-- bbdefines.rs
-- ==========================================================================

/-- Models `pub type BitBoardState = u64;` (values kept below `2^64`). -/
abbrev BitBoardState := Nat

/-- Models `pub enum File` (discriminants 0..7). -/
abbrev File := Fin 8

/-- Models `pub enum Rank` (discriminants 0..7). -/
abbrev Rank := Fin 8

/-- Models `pub enum Cell` (discriminants 0..63, A1 = 0 .. H8 = 63). -/
abbrev Cell := Fin 64

/-- Models the `FILES_BBS` mask table: `0x0101010101010101 << f`. -/
def FILES_BBS (f : File) : BitBoardState := 0x0101010101010101 <<< f.val

/-- Models the `RANKS_BBS` mask table: `0xFF << 8*r`. -/
def RANKS_BBS (r : Rank) : BitBoardState := 0xFF <<< (8 * r.val)

/-- Models `to_cell(f, r)`: cell index `r*8 + f`. -/
def to_cell (f : File) (r : Rank) : Cell := ⟨r.val * 8 + f.val, by omega⟩

/-- Models `file(c)`: `c % 8`. -/
def file (c : Cell) : File := ⟨c.val % 8, by omega⟩

/-- Models `rank(c)`: `c >> 3`, i.e. `c / 8`. -/
def rank (c : Cell) : Rank := ⟨c.val / 8, by omega⟩

/-- Models `num::FromPrimitive::from_i32` targeting `File`. -/
def fileFromInt (x : Int) : Option File :=
  if h : 0 ≤ x ∧ x < 8 then some ⟨x.toNat, by omega⟩ else none

/-- Models `num::FromPrimitive::from_i32` targeting `Rank`. -/
def rankFromInt (x : Int) : Option Rank :=
  if h : 0 ≤ x ∧ x < 8 then some ⟨x.toNat, by omega⟩ else none

/-- Models `num::FromPrimitive::from_i32` targeting `Cell`. -/
def cellFromInt (x : Int) : Option Cell :=
  if h : 0 ≤ x ∧ x < 64 then some ⟨x.toNat, by omega⟩ else none

/-- Models `num::FromPrimitive::from_usize` targeting `Cell`. -/
def cellFromNat (i : Nat) : Option Cell :=
  if h : i < 64 then some ⟨i, h⟩ else none

/-- Models `west(c)`: `from_i32(file(c) - 1)`. -/
def west (c : Cell) : Option File := fileFromInt ((file c).val - 1)

/-- Models `east(c)`: `from_i32(file(c) + 1)`. -/
def east (c : Cell) : Option File := fileFromInt ((file c).val + 1)

/-- Models `south(c)`: `from_i32(rank(c) - 1)`. -/
def south (c : Cell) : Option Rank := rankFromInt ((rank c).val - 1)

/-- Models `north(c)`: `from_i32(rank(c) + 1)`. -/
def north (c : Cell) : Option Rank := rankFromInt ((rank c).val + 1)

/-- Models `w(c)`: `None` on file A, else `from_i32(c - 1)`. -/
def w (c : Cell) : Option Cell :=
  if (file c).val = 0 then none else cellFromInt ((c.val : Int) - 1)

/-- Models `nw(c)`: `None` on file A, else `from_i32(c + 7)`. -/
def nw (c : Cell) : Option Cell :=
  if (file c).val = 0 then none else cellFromInt ((c.val : Int) + 7)

/-- Models `n(c)`: `None` on rank 8, else `from_i32(c + 8)`. -/
def n (c : Cell) : Option Cell :=
  if (rank c).val = 7 then none else cellFromInt ((c.val : Int) + 8)

/-- Models `ne(c)`: `None` on file H, else `from_i32(c + 9)`. -/
def ne (c : Cell) : Option Cell :=
  if (file c).val = 7 then none else cellFromInt ((c.val : Int) + 9)

/-- Models `e(c)`: `None` on file H, else `from_i32(c + 1)`. -/
def e (c : Cell) : Option Cell :=
  if (file c).val = 7 then none else cellFromInt ((c.val : Int) + 1)

/-- Models `se(c)`: `None` on file H, else `from_i32(c - 7)`. -/
def se (c : Cell) : Option Cell :=
  if (file c).val = 7 then none else cellFromInt ((c.val : Int) - 7)

/-- Models `s(c)`: `None` on rank 1, else `from_i32(c - 8)`. -/
def s (c : Cell) : Option Cell :=
  if (rank c).val = 0 then none else cellFromInt ((c.val : Int) - 8)

/-- Models `sw(c)`: `None` on file A, else `from_i32(c - 9)`. -/
def sw (c : Cell) : Option Cell :=
  if (file c).val = 0 then none else cellFromInt ((c.val : Int) - 9)

/-- Models `calc_cell_after_steps(c, step_north, step_east)`. -/
def calc_cell_after_steps (c : Cell) (step_north step_east : Int) : Option Cell :=
  match rankFromInt (((rank c).val : Int) + step_north),
        fileFromInt (((file c).val : Int) + step_east) with
  | some valid_rank, some valid_file => some (to_cell valid_file valid_rank)
  | _, _ => none

/-- Models `single_cell(c)`: `1u64 << c`. -/
def single_cell (c : Cell) : BitBoardState := 1 <<< c.val

/-- Models `neighbour(c)`: `file_mask & rank_mask ^ single_cell(c)`. -/
def neighbour (c : Cell) : BitBoardState :=
  let file_mask : BitBoardState :=
    FILES_BBS (file c) |||
    (match west c with | some f => FILES_BBS f | none => 0) |||
    (match east c with | some f => FILES_BBS f | none => 0)
  let rank_mask : BitBoardState :=
    RANKS_BBS (rank c) |||
    (match north c with | some r => RANKS_BBS r | none => 0) |||
    (match south c with | some r => RANKS_BBS r | none => 0)
  (file_mask &&& rank_mask) ^^^ single_cell c

-- ==========================================================================
-- bitboard.rs  (the struct `BitBoard { state: u64 }` is modelled by its
-- state; methods become functions on `BitBoardState`)
-- ==========================================================================

/-- A `BitBoard` is identified with its single `u64` field `state`. -/
abbrev BitBoard := BitBoardState

/-- Models `BitBoard::set_cell`: `state |= 1 << c`. -/
def set_cell (b : BitBoard) (c : Cell) : BitBoard := b ||| (1 <<< c.val)

/-- Models `BitBoard::from_cells`: start empty, `set_cell` each cell. -/
def from_cells (cells : List Cell) : BitBoard := cells.foldl set_cell 0

/-- Models `BitBoard::cell_is_active`: `state & (1 << c) != 0`. -/
def cell_is_active (b : BitBoard) (c : Cell) : Bool := b &&& (1 <<< c.val) != 0

/-- Models `BitBoard::set_rank`: `state |= RANKS_BBS[r]`. -/
def set_rank (b : BitBoard) (r : Rank) : BitBoard := b ||| RANKS_BBS r

/-- Models `BitBoard::set_cell_from_file_and_rank`. -/
def set_cell_from_file_and_rank (b : BitBoard) (f : File) (r : Rank) : BitBoard :=
  b ||| single_cell (to_cell f r)

/-- The loop of `BitBoard::pop_count`: clear the lowest set bit until the
state is zero, counting iterations.  The loop runs once per set bit, so on
a `u64` state it runs at most 64 times; the fuel argument makes the
recursion structural without changing the result for any `u64` state. -/
def pop_count_loop : Nat → Nat → Nat
  | 0, _ => 0
  | fuel + 1, bbs => if bbs = 0 then 0 else pop_count_loop fuel (bbs &&& (bbs - 1)) + 1

/-- Models `BitBoard::pop_count`. -/
def pop_count (b : BitBoard) : Nat := pop_count_loop 64 b

/-- The `for ndx in 0..NUM_CELLS` search loop of `BitBoard::active_cell`;
the `Cell::from_usize(ndx)?` conversion is modelled by `cellFromNat`
(whose `none` case propagates as in the `?` operator). -/
def active_cell_loop (b : BitBoard) : List Nat → Option Cell
  | [] => none
  | ndx :: rest =>
    match cellFromNat ndx with
    | none => none
    | some c => if cell_is_active b c then some c else active_cell_loop b rest

/-- Models `BitBoard::active_cell`: the unique active cell when
`pop_count == 1`, otherwise `None`. -/
def active_cell (b : BitBoard) : Option Cell :=
  if pop_count b = 1 then active_cell_loop b (List.range 64) else none

-- ==========================================================================
-- chessdefines.rs
-- ==========================================================================

/-- Models `pub enum ArmyColour { White, Black }`. -/
inductive ArmyColour where
  | White
  | Black
deriving DecidableEq, Repr

/-- Models `pub enum ChessPiece { King, Queen, Bishop, Knight, Rook, Pawn }`
(the declaration order is the priority order used by `get_piece_in_cell`). -/
inductive ChessPiece where
  | King
  | Queen
  | Bishop
  | Knight
  | Rook
  | Pawn
deriving DecidableEq, Repr

/-- The discriminant of a `ChessPiece` (its `as usize` value). -/
def pieceIdx : ChessPiece → Nat
  | .King => 0
  | .Queen => 1
  | .Bishop => 2
  | .Knight => 3
  | .Rook => 4
  | .Pawn => 5

-- ==========================================================================
-- chessarmy.rs
-- ==========================================================================

/-- Models `pub struct ChessArmy { pieces_bmask: [BitBoard; 6], colour }`;
the array indexed by piece discriminant becomes a function. -/
structure ChessArmy where
  pieces_bmask : ChessPiece → BitBoard
  colour : ArmyColour

/-- Models `ChessArmy::new(c)`: all six piece bitboards empty. -/
def ChessArmy.new (c : ArmyColour) : ChessArmy :=
  { pieces_bmask := fun _ => 0, colour := c }

/-- Models `ChessArmy::get_pieces`. -/
def get_pieces (a : ChessArmy) (cp : ChessPiece) : BitBoard := a.pieces_bmask cp

-- Named cells used by `reset` and by the concrete scenarios.
def cA1 : Cell := ⟨0, by omega⟩
def cB1 : Cell := ⟨1, by omega⟩
def cC1 : Cell := ⟨2, by omega⟩
def cD1 : Cell := ⟨3, by omega⟩
def cE1 : Cell := ⟨4, by omega⟩
def cF1 : Cell := ⟨5, by omega⟩
def cG1 : Cell := ⟨6, by omega⟩
def cH1 : Cell := ⟨7, by omega⟩
def cA8 : Cell := ⟨56, by omega⟩
def cB8 : Cell := ⟨57, by omega⟩
def cC8 : Cell := ⟨58, by omega⟩
def cD8 : Cell := ⟨59, by omega⟩
def cE8 : Cell := ⟨60, by omega⟩
def cF8 : Cell := ⟨61, by omega⟩
def cG8 : Cell := ⟨62, by omega⟩
def cH8 : Cell := ⟨63, by omega⟩
def cE2 : Cell := ⟨12, by omega⟩
def cE3 : Cell := ⟨20, by omega⟩
def cE4 : Cell := ⟨28, by omega⟩

/-- Models `ChessArmy::reset(c)` (the argument army is fully overwritten). -/
def reset (_a : ChessArmy) (c : ArmyColour) : ChessArmy :=
  match c with
  | .White =>
    { colour := c
      pieces_bmask := fun cp =>
        match cp with
        | .King => from_cells [cE1]
        | .Queen => from_cells [cD1]
        | .Bishop => from_cells [cC1, cF1]
        | .Knight => from_cells [cB1, cG1]
        | .Rook => from_cells [cA1, cH1]
        | .Pawn => set_rank 0 ⟨1, by omega⟩ }
  | .Black =>
    { colour := c
      pieces_bmask := fun cp =>
        match cp with
        | .King => from_cells [cE8]
        | .Queen => from_cells [cD8]
        | .Bishop => from_cells [cC8, cF8]
        | .Knight => from_cells [cB8, cG8]
        | .Rook => from_cells [cA8, cH8]
        | .Pawn => set_rank 0 ⟨6, by omega⟩ }

/-- Models `ChessArmy::initial(c)`: an empty army reset to the standard
deployment. -/
def initial (c : ArmyColour) : ChessArmy := reset (ChessArmy.new c) c

/-- Models `ChessArmy::place_pieces`. -/
def place_pieces (a : ChessArmy) (cp : ChessPiece) (cells : List Cell) : ChessArmy :=
  { a with pieces_bmask := fun q =>
      if q = cp then a.pieces_bmask cp ||| from_cells cells else a.pieces_bmask q }

/-- Models `ChessArmy::num_pieces` (sum of the six pop counts, in source
order). -/
def num_pieces (a : ChessArmy) : Nat :=
  pop_count (get_pieces a .King) + pop_count (get_pieces a .Queen) +
  pop_count (get_pieces a .Bishop) + pop_count (get_pieces a .Knight) +
  pop_count (get_pieces a .Rook) + pop_count (get_pieces a .Pawn)

/-- Models `ChessArmy::occupied_cells` (union in source order). -/
def occupied_cells (a : ChessArmy) : BitBoard :=
  get_pieces a .King ||| get_pieces a .Queen ||| get_pieces a .Pawn |||
  get_pieces a .Bishop ||| get_pieces a .Knight ||| get_pieces a .Rook

/-- Models `ChessArmy::get_piece_in_cell`: the six bitboards are checked
in the fixed order King, Queen, Bishop, Knight, Rook, Pawn. -/
def get_piece_in_cell (a : ChessArmy) (c : Cell) : Option ChessPiece :=
  if cell_is_active (get_pieces a .King) c then some .King
  else if cell_is_active (get_pieces a .Queen) c then some .Queen
  else if cell_is_active (get_pieces a .Bishop) c then some .Bishop
  else if cell_is_active (get_pieces a .Knight) c then some .Knight
  else if cell_is_active (get_pieces a .Rook) c then some .Rook
  else if cell_is_active (get_pieces a .Pawn) c then some .Pawn
  else none

/-- The common shape of the piece-wise `while cell_ndx .. && remaining > 0`
loops of `chessarmy.rs`: scan the given cells in order, and for every cell
reported by `get_piece_in_cell` to hold a piece of type `p` fold the
piece's contribution into the accumulator, counting down `remaining`. -/
def piece_scan (a : ChessArmy) (p : ChessPiece) (contrib : Cell → BitBoard) :
    List Cell → Nat → BitBoard → BitBoard
  | [], _, bb => bb
  | c :: rest, remaining, bb =>
    if 0 < remaining then
      if get_piece_in_cell a c = some p then
        piece_scan a p contrib rest (remaining - 1) (bb ||| contrib c)
      else
        piece_scan a p contrib rest remaining bb
    else bb

/-- The scan range `Cell::A1 as usize ..= Cell::H8 as usize`. -/
def all_cells : List Cell := List.finRange 64

/-- The scan range `Cell::A2 as usize .. Cell::A8 as usize` used by
`pawns_controlled_cells`. -/
def pawn_cells : List Cell := ((List.finRange 64).drop 8).take 48

/-- One direction of the sliding-piece exploration loops: starting from
(file `f`, rank `r`) and stepping by (`df`, `dr`), mark every visited
in-board cell and stop immediately after marking the first cell active in
`busy`.  A ray on an 8x8 board visits at most 7 in-board cells, so fuel 8
is never exhausted before the loop's own exit conditions fire. -/
def ray_cast (busy : BitBoardState) (df dr : Int) : Nat → Int → Int → BitBoardState
  | 0, _, _ => 0
  | fuel + 1, f, r =>
    if h : 0 ≤ f ∧ f < 8 ∧ 0 ≤ r ∧ r < 8 then
      if cell_is_active busy (to_cell ⟨f.toNat, by omega⟩ ⟨r.toNat, by omega⟩) then
        single_cell (to_cell ⟨f.toNat, by omega⟩ ⟨r.toNat, by omega⟩)
      else
        single_cell (to_cell ⟨f.toNat, by omega⟩ ⟨r.toNat, by omega⟩) |||
          ray_cast busy df dr fuel (f + df) (r + dr)
    else 0

/-- The four diagonal exploration loops of `bishops_controlled_cells`
(left-lower, right-upper, left-upper, right-lower) for a bishop on file
`f`, rank `r`. -/
def bishop_rays (busy : BitBoardState) (f r : Nat) : BitBoardState :=
  ray_cast busy (-1) (-1) 8 ((f : Int) - 1) ((r : Int) - 1) |||
  ray_cast busy 1 1 8 ((f : Int) + 1) ((r : Int) + 1) |||
  ray_cast busy (-1) 1 8 ((f : Int) - 1) ((r : Int) + 1) |||
  ray_cast busy 1 (-1) 8 ((f : Int) + 1) ((r : Int) - 1)

/-- The four orthogonal exploration loops of `rooks_controlled_cells`
(rank left, rank right, file lower, file upper). -/
def rook_rays (busy : BitBoardState) (f r : Nat) : BitBoardState :=
  ray_cast busy (-1) 0 8 ((f : Int) - 1) (r : Int) |||
  ray_cast busy 1 0 8 ((f : Int) + 1) (r : Int) |||
  ray_cast busy 0 (-1) 8 (f : Int) ((r : Int) - 1) |||
  ray_cast busy 0 1 8 (f : Int) ((r : Int) + 1)

/-- Models `ChessArmy::bishops_controlled_cells`. -/
def bishops_controlled_cells (a : ChessArmy) (intf_board : BitBoard) : BitBoard :=
  let busy := occupied_cells a ||| intf_board
  piece_scan a .Bishop (fun c => bishop_rays busy (file c).val (rank c).val)
    all_cells (pop_count (get_pieces a .Bishop)) 0

/-- Models `ChessArmy::rooks_controlled_cells`. -/
def rooks_controlled_cells (a : ChessArmy) (intf_board : BitBoard) : BitBoard :=
  let busy := occupied_cells a ||| intf_board
  piece_scan a .Rook (fun c => rook_rays busy (file c).val (rank c).val)
    all_cells (pop_count (get_pieces a .Rook)) 0

/-- The eight knight offsets applied by `knights_controlled_cells`, in
source order. -/
def knight_jumps (c : Cell) : BitBoardState :=
  [((2 : Int), (1 : Int)), (1, 2), (-1, 2), (-2, 1),
   (-2, -1), (-1, -2), (1, -2), (2, -1)].foldl
    (fun bb d =>
      match calc_cell_after_steps c d.1 d.2 with
      | some cell => set_cell bb cell
      | none => bb) 0

/-- Models `ChessArmy::knights_controlled_cells`. -/
def knights_controlled_cells (a : ChessArmy) : BitBoard :=
  piece_scan a .Knight knight_jumps all_cells (pop_count (get_pieces a .Knight)) 0

/-- Models the associated function `ChessArmy::pawn_controlled_cells`:
White pawns control their NW and NE neighbours, Black pawns SW and SE. -/
def pawn_controlled_cells (c : Cell) (ac : ArmyColour) : BitBoard :=
  match ac with
  | .White =>
    let bb : BitBoard := 0
    let bb := match nw c with | some cell => set_cell bb cell | none => bb
    match ne c with | some cell => set_cell bb cell | none => bb
  | .Black =>
    let bb : BitBoard := 0
    let bb := match sw c with | some cell => set_cell bb cell | none => bb
    match se c with | some cell => set_cell bb cell | none => bb

/-- Models `ChessArmy::pawns_controlled_cells` (scan limited to the cells
from A2 included to A8 excluded). -/
def pawns_controlled_cells (a : ChessArmy) : BitBoard :=
  piece_scan a .Pawn (fun c => pawn_controlled_cells c a.colour)
    pawn_cells (pop_count (get_pieces a .Pawn)) 0

/-- Models `ChessArmy::queens_controlled_cells`: the piece-substitution
trick.  Bishops and rooks are folded into the pawn slot as blockers; the
queens are relabelled first as bishops (diagonal pass) and then as rooks
(orthogonal pass), and the two results are unioned. -/
def queens_controlled_cells (a : ChessArmy) (intf_board : BitBoard) : BitBoard :=
  let fake1 : ChessArmy :=
    { colour := a.colour
      pieces_bmask := fun cp =>
        match cp with
        | .Pawn => get_pieces a .Pawn ||| get_pieces a .Bishop ||| get_pieces a .Rook
        | .Bishop => get_pieces a .Queen
        | .Queen => 0
        | .King => get_pieces a .King
        | .Knight => get_pieces a .Knight
        | .Rook => get_pieces a .Rook }
  let bb := bishops_controlled_cells fake1 intf_board
  let fake2 : ChessArmy :=
    { colour := a.colour
      pieces_bmask := fun cp =>
        match cp with
        | .Pawn => get_pieces a .Pawn ||| get_pieces a .Bishop ||| get_pieces a .Rook
        | .Bishop => 0
        | .Queen => 0
        | .King => get_pieces a .King
        | .Knight => get_pieces a .Knight
        | .Rook => get_pieces a .Queen }
  bb ||| rooks_controlled_cells fake2 intf_board

/-- Models `ChessArmy::get_king_position`: `active_cell().unwrap()`; the
`unwrap` panic is modelled by `none`. -/
def get_king_position (a : ChessArmy) : Option Cell :=
  active_cell (get_pieces a .King)

/-- Models `ChessArmy::king_controlled_cells` (propagating the possible
`get_king_position` panic). -/
def king_controlled_cells (a : ChessArmy) : Option BitBoard :=
  (get_king_position a).map neighbour

/-- Models `ChessArmy::controlled_cells` (union in source order; `none`
marks the panic inherited from `king_controlled_cells`). -/
def controlled_cells (a : ChessArmy) (intf_board : BitBoard) : Option BitBoard :=
  (king_controlled_cells a).map fun kb =>
    kb ||| queens_controlled_cells a intf_board |||
    bishops_controlled_cells a intf_board ||| knights_controlled_cells a |||
    rooks_controlled_cells a intf_board ||| pawns_controlled_cells a

/-- Models `ChessArmy::controlled_cells_by_piece_type`. -/
def controlled_cells_by_piece_type (a : ChessArmy) (cp : ChessPiece)
    (intf_board : BitBoard) : Option BitBoard :=
  match cp with
  | .King => king_controlled_cells a
  | .Queen => some (queens_controlled_cells a intf_board)
  | .Bishop => some (bishops_controlled_cells a intf_board)
  | .Knight => some (knights_controlled_cells a)
  | .Rook => some (rooks_controlled_cells a intf_board)
  | .Pawn => some (pawns_controlled_cells a)

/-- Models `ChessArmy::possible_moves_for_king`. -/
def possible_moves_for_king (a : ChessArmy) : Option BitBoard :=
  (king_controlled_cells a).map fun kb =>
    (kb ||| occupied_cells a) ^^^ occupied_cells a

/-- Models `ChessArmy::possible_moves_for_regular_piece_in_cell`: if no
piece of type `cp` is reported at `c` the empty bitboard is returned;
otherwise the other pieces of the same type are folded into the pawn slot
and the single piece's controlled cells minus own occupancy are
computed. -/
def possible_moves_for_regular_piece_in_cell (a : ChessArmy) (cp : ChessPiece)
    (c : Cell) (intf_board : BitBoard) : Option BitBoard :=
  let piece_bb := from_cells [c]
  if get_piece_in_cell a c = some cp then
    let fake_army : ChessArmy :=
      { colour := a.colour
        pieces_bmask := fun q =>
          if q = cp then piece_bb
          else if q = .Pawn then
            get_pieces a .Pawn ||| (get_pieces a cp ^^^ piece_bb)
          else get_pieces a q }
    (controlled_cells_by_piece_type fake_army cp intf_board).map fun cc =>
      (cc ||| occupied_cells a) ^^^ occupied_cells a
  else some 0

/-- Models `ChessArmy::possible_moves_for_white_pawn_in_cell`. -/
def possible_moves_for_white_pawn_in_cell (a : ChessArmy) (c : Cell)
    (intf_board : BitBoard) : BitBoard :=
  let bb : BitBoard := 0
  let bb :=
    match n c with
    | some tentative_cell =>
      if (occupied_cells a ||| intf_board) &&& from_cells [tentative_cell] = 0 then
        let bb := set_cell bb tentative_cell
        if rank c = (⟨1, by omega⟩ : Rank) then
          match n tentative_cell with
          | some next_cell =>
            if (occupied_cells a ||| intf_board) &&& from_cells [next_cell] = 0 then
              set_cell bb next_cell
            else bb
          | none => bb
        else bb
      else bb
    | none => bb
  bb ||| (pawn_controlled_cells c a.colour &&& intf_board)

/-- Models `ChessArmy::possible_moves_for_black_pawn_in_cell`. -/
def possible_moves_for_black_pawn_in_cell (a : ChessArmy) (c : Cell)
    (intf_board : BitBoard) : BitBoard :=
  let bb : BitBoard := 0
  let bb :=
    match s c with
    | some tentative_cell =>
      if (occupied_cells a ||| intf_board) &&& from_cells [tentative_cell] = 0 then
        let bb := set_cell bb tentative_cell
        if rank c = (⟨6, by omega⟩ : Rank) then
          match s tentative_cell with
          | some next_cell =>
            if (occupied_cells a ||| intf_board) &&& from_cells [next_cell] = 0 then
              set_cell bb next_cell
            else bb
          | none => bb
        else bb
      else bb
    | none => bb
  bb ||| (pawn_controlled_cells c a.colour &&& intf_board)

/-- Models `ChessArmy::possible_moves_for_pawn_in_cell`: empty unless a
pawn is reported at `c`, then dispatch on the army colour. -/
def possible_moves_for_pawn_in_cell (a : ChessArmy) (c : Cell)
    (intf_board : BitBoard) : BitBoard :=
  if get_piece_in_cell a c = some .Pawn then
    match a.colour with
    | .White => possible_moves_for_white_pawn_in_cell a c intf_board
    | .Black => possible_moves_for_black_pawn_in_cell a c intf_board
  else 0

/-- Models `ChessArmy::possible_moves_for_piece_in_cell` (dispatch: King
rule, Pawn rule, generic regular-piece rule). -/
def possible_moves_for_piece_in_cell (a : ChessArmy) (cp : ChessPiece)
    (c : Cell) (intf_board : BitBoard) : Option BitBoard :=
  match cp with
  | .King => possible_moves_for_king a
  | .Pawn => some (possible_moves_for_pawn_in_cell a c intf_board)
  | _ => possible_moves_for_regular_piece_in_cell a cp c intf_board

-- ==========================================================================
-- Helper lemmas: single bits and cell activity
-- ==========================================================================

theorem single_cell_eq (c : Cell) : single_cell c = 2 ^ c.val :=
  Nat.one_shiftLeft _

theorem and_two_pow_eq (b k : Nat) :
    b &&& 2 ^ k = if b.testBit k then 2 ^ k else 0 := by
  apply Nat.eq_of_testBit_eq
  intro i
  by_cases hik : k = i
  · subst hik
    cases hb : b.testBit k <;> simp [Nat.testBit_and, hb, Nat.testBit_two_pow]
  · cases hb : b.testBit k <;>
      simp [Nat.testBit_and, hb, Nat.testBit_two_pow, hik]

theorem cell_is_active_eq_testBit (b : BitBoard) (c : Cell) :
    cell_is_active b c = b.testBit c.val := by
  unfold cell_is_active
  rw [Nat.one_shiftLeft, and_two_pow_eq]
  cases h : b.testBit c.val <;>
    simp [h, (Nat.two_pow_pos c.val).ne']

theorem set_cell_eq (b : BitBoard) (c : Cell) : set_cell b c = b ||| 2 ^ c.val := by
  unfold set_cell; rw [Nat.one_shiftLeft]

-- ==========================================================================
-- Helper lemmas: bit counting (relating the clear-lowest-bit loop of
-- `pop_count` to the binary digit count)
-- ==========================================================================

/-- The number of set bits of a natural number, by binary recursion. -/
def bitCount (x : Nat) : Nat :=
  if h : x = 0 then 0 else bitCount (x / 2) + x % 2
termination_by x
decreasing_by exact Nat.div_lt_self (Nat.pos_of_ne_zero h) (by omega)

theorem bitCount_zero : bitCount 0 = 0 := by
  unfold bitCount; simp

theorem bitCount_of_ne_zero (x : Nat) (h : x ≠ 0) :
    bitCount x = bitCount (x / 2) + x % 2 := by
  conv_lhs => unfold bitCount
  simp [h]

theorem bitCount_eq_zero_iff (x : Nat) : bitCount x = 0 ↔ x = 0 := by
  induction x using Nat.strong_induction_on with
  | _ x ih =>
    by_cases h : x = 0
    · simp [h, bitCount_zero]
    · rw [bitCount_of_ne_zero x h]
      constructor
      · intro he
        have h2 : bitCount (x / 2) = 0 := by omega
        have h3 : x % 2 = 0 := by omega
        have h4 : x / 2 = 0 :=
          (ih (x / 2) (Nat.div_lt_self (Nat.pos_of_ne_zero h) (by omega))).mp h2
        omega
      · intro hx; exact absurd hx h

theorem bitCount_two_mul (x : Nat) : bitCount (2 * x) = bitCount x := by
  by_cases hx : x = 0
  · simp [hx]
  · rw [bitCount_of_ne_zero (2 * x) (by omega)]
    have h1 : 2 * x / 2 = x := by omega
    have h2 : 2 * x % 2 = 0 := by omega
    simp [h1, h2]

theorem bitCount_two_pow (k : Nat) : bitCount (2 ^ k) = 1 := by
  induction k with
  | zero =>
    rw [pow_zero, bitCount_of_ne_zero 1 one_ne_zero]
    simp [bitCount_zero]
  | succ k ih =>
    have : (2 : Nat) ^ (k + 1) = 2 * 2 ^ k := by ring
    rw [this, bitCount_two_mul, ih]

theorem bitCount_eq_one (x : Nat) (h : bitCount x = 1) : ∃ k, x = 2 ^ k := by
  induction x using Nat.strong_induction_on with
  | _ x ih =>
    have hx : x ≠ 0 := by
      intro h0; rw [h0, bitCount_zero] at h; omega
    rw [bitCount_of_ne_zero x hx] at h
    rcases Nat.mod_two_eq_zero_or_one x with he | ho
    · have h1 : bitCount (x / 2) = 1 := by omega
      obtain ⟨k, hk⟩ := ih (x / 2) (Nat.div_lt_self (Nat.pos_of_ne_zero hx) (by omega)) h1
      refine ⟨k + 1, ?_⟩
      have : (2 : Nat) ^ (k + 1) = 2 * 2 ^ k := by ring
      omega
    · have h1 : bitCount (x / 2) = 0 := by omega
      have h2 : x / 2 = 0 := (bitCount_eq_zero_iff _).mp h1
      exact ⟨0, by omega⟩

theorem bitCount_le_of_lt_two_pow (k : Nat) :
    ∀ x, x < 2 ^ k → bitCount x ≤ k := by
  induction k with
  | zero =>
    intro x hx
    have : x = 0 := by simpa using hx
    simp [this, bitCount_zero]
  | succ k ih =>
    intro x hx
    by_cases h0 : x = 0
    · simp [h0, bitCount_zero]
    · rw [bitCount_of_ne_zero x h0]
      have hp : (2 : Nat) ^ (k + 1) = 2 ^ k * 2 := by ring
      have : x / 2 < 2 ^ k := by omega
      have := ih (x / 2) this
      omega

theorem and_pred_of_odd (x : Nat) (h : x % 2 = 1) : x &&& (x - 1) = x - 1 := by
  apply Nat.eq_of_testBit_eq
  intro i
  cases i with
  | zero =>
    have h1 : (x - 1) % 2 = 0 := by omega
    simp [Nat.testBit_and, Nat.testBit_zero, h1]
  | succ i =>
    have h1 : (x - 1) / 2 = x / 2 := by omega
    rw [Nat.testBit_and, Nat.testBit_add_one x, Nat.testBit_add_one (x - 1), h1,
      Bool.and_self]

theorem and_pred_of_even (x : Nat) (h : x % 2 = 0) :
    x &&& (x - 1) = 2 * ((x / 2) &&& (x / 2 - 1)) := by
  apply Nat.eq_of_testBit_eq
  intro i
  cases i with
  | zero =>
    simp [Nat.testBit_and, Nat.testBit_zero, h, Nat.mul_mod_right]
  | succ i =>
    have h1 : (x - 1) / 2 = x / 2 - 1 := by omega
    have h2 : 2 * (x / 2 &&& (x / 2 - 1)) / 2 = x / 2 &&& (x / 2 - 1) := by omega
    rw [Nat.testBit_and, Nat.testBit_add_one x, Nat.testBit_add_one (x - 1), h1,
      Nat.testBit_add_one (2 * (x / 2 &&& (x / 2 - 1))), h2, Nat.testBit_and]

theorem bitCount_and_pred (x : Nat) (h : x ≠ 0) :
    bitCount (x &&& (x - 1)) + 1 = bitCount x := by
  induction x using Nat.strong_induction_on with
  | _ x ih =>
    rcases Nat.mod_two_eq_zero_or_one x with he | ho
    · have hm : x / 2 ≠ 0 := by omega
      rw [and_pred_of_even x he, bitCount_of_ne_zero x h, bitCount_two_mul]
      have := ih (x / 2) (Nat.div_lt_self (Nat.pos_of_ne_zero h) (by omega)) hm
      omega
    · rw [and_pred_of_odd x ho, bitCount_of_ne_zero x h]
      by_cases h1 : x = 1
      · simp [h1, bitCount_zero]
      · rw [bitCount_of_ne_zero (x - 1) (by omega)]
        have e1 : (x - 1) / 2 = x / 2 := by omega
        have e2 : (x - 1) % 2 = 0 := by omega
        rw [e1, e2]
        omega

theorem pop_count_loop_eq_min (fuel : Nat) :
    ∀ x, pop_count_loop fuel x = min (bitCount x) fuel := by
  induction fuel with
  | zero => intro x; simp [pop_count_loop]
  | succ fuel ih =>
    intro x
    by_cases h0 : x = 0
    · simp [h0, pop_count_loop, bitCount_zero]
    · rw [show pop_count_loop (fuel + 1) x
          = pop_count_loop fuel (x &&& (x - 1)) + 1 from by
            simp [pop_count_loop, h0]]
      rw [ih (x &&& (x - 1))]
      have h1 := bitCount_and_pred x h0
      have h2 : bitCount x ≠ 0 := by
        intro hc; exact h0 ((bitCount_eq_zero_iff x).mp hc)
      omega

theorem pop_count_eq_bitCount (x : Nat) (h : x < 2 ^ 64) :
    pop_count x = bitCount x := by
  unfold pop_count
  rw [pop_count_loop_eq_min]
  have := bitCount_le_of_lt_two_pow 64 x h
  omega

theorem le_pop_count_of_le_bitCount {m x : Nat} (h1 : m ≤ bitCount x)
    (h2 : m ≤ 64) : m ≤ pop_count x := by
  unfold pop_count
  rw [pop_count_loop_eq_min]
  omega

-- ==========================================================================
-- Helper lemmas: counting set bits below an index bound
-- ==========================================================================

theorem countP_testBit_le_bitCount :
    ∀ (k x : Nat), ((List.range k).countP fun i => x.testBit i) ≤ bitCount x := by
  intro k
  induction k with
  | zero => intro x; simp
  | succ k ih =>
    intro x
    rw [List.range_succ_eq_map, List.countP_cons, List.countP_map]
    have hc : (List.countP ((fun i => x.testBit i) ∘ Nat.succ) (List.range k))
        = (List.range k).countP fun i => (x / 2).testBit i := by
      apply List.countP_congr
      intro i _
      simp [Function.comp, Nat.testBit_add_one]
    rw [hc]
    have := ih (x / 2)
    by_cases h0 : x = 0
    · simp [h0]
    · rw [bitCount_of_ne_zero x h0]
      rcases Nat.mod_two_eq_zero_or_one x with he | ho
      · have : x.testBit 0 = false := by simp [Nat.testBit_zero]; omega
        simp [this]; omega
      · have : x.testBit 0 = true := by simp [Nat.testBit_zero, ho]
        simp [this]; omega

-- ==========================================================================
-- Claims C8 and C9
-- ==========================================================================

/-- C8: `ChessArmy::initial(White).occupied_cells()` equals the raw mask
`0x000000000000FFFF` (cells A1..H1 and A2..H2), the Black initial army
occupies `0xFFFF000000000000`, and both initial armies count 16 pieces. -/
theorem claim8_initial_position :
    occupied_cells (initial .White) = 0x000000000000FFFF ∧
    occupied_cells (initial .Black) = 0xFFFF000000000000 ∧
    num_pieces (initial .White) = 16 ∧
    num_pieces (initial .Black) = 16 := by
  refine ⟨by decide, by decide, by decide, by decide⟩

/-- C9: for every cell, projecting to file and rank and recomposing with
`to_cell` is the identity (on the cell as well as on both projections),
with the cell index computed as `rank * 8 + file`. -/
theorem claim9_cell_round_trip :
    ∀ c : Cell,
      file (to_cell (file c) (rank c)) = file c ∧
      rank (to_cell (file c) (rank c)) = rank c ∧
      to_cell (file c) (rank c) = c ∧
      (to_cell (file c) (rank c)).val = (rank c).val * 8 + (file c).val := by
  decide

-- ==========================================================================
-- Characterisation of `get_piece_in_cell` and claim C10
-- ==========================================================================

/-- The priority order of `get_piece_in_cell`. -/
def piece_order : List ChessPiece :=
  [.King, .Queen, .Bishop, .Knight, .Rook, .Pawn]

theorem get_piece_in_cell_eq_find (a : ChessArmy) (c : Cell) :
    get_piece_in_cell a c =
      piece_order.find? (fun p => cell_is_active (get_pieces a p) c) := by
  unfold get_piece_in_cell piece_order
  rcases hK : cell_is_active (get_pieces a .King) c <;>
  rcases hQ : cell_is_active (get_pieces a .Queen) c <;>
  rcases hB : cell_is_active (get_pieces a .Bishop) c <;>
  rcases hN : cell_is_active (get_pieces a .Knight) c <;>
  rcases hR : cell_is_active (get_pieces a .Rook) c <;>
  rcases hP : cell_is_active (get_pieces a .Pawn) c <;>
    simp [List.find?, hK, hQ, hB, hN, hR, hP]

theorem get_piece_active (a : ChessArmy) (c : Cell) (p : ChessPiece)
    (h : get_piece_in_cell a c = some p) :
    cell_is_active (get_pieces a p) c = true := by
  rw [get_piece_in_cell_eq_find] at h
  exact @List.find?_some ChessPiece (fun q => cell_is_active (get_pieces a q) c)
    p piece_order h

/-- C10: `get_piece_in_cell` returns a piece exactly when the cell is
active in `occupied_cells`, and the piece returned is the first of King,
Queen, Bishop, Knight, Rook, Pawn (in this fixed order) whose bitboard
has the bit for the cell set. -/
theorem claim10_get_piece_in_cell :
    ∀ (a : ChessArmy) (c : Cell),
      (get_piece_in_cell a c).isSome = cell_is_active (occupied_cells a) c ∧
      get_piece_in_cell a c =
        piece_order.find? (fun p => cell_is_active (get_pieces a p) c) := by
  intro a c
  refine ⟨?_, get_piece_in_cell_eq_find a c⟩
  unfold get_piece_in_cell occupied_cells
  simp only [cell_is_active_eq_testBit, Nat.testBit_or]
  rcases hK : (get_pieces a .King).testBit c.val <;>
  rcases hQ : (get_pieces a .Queen).testBit c.val <;>
  rcases hB : (get_pieces a .Bishop).testBit c.val <;>
  rcases hN : (get_pieces a .Knight).testBit c.val <;>
  rcases hR : (get_pieces a .Rook).testBit c.val <;>
  rcases hP : (get_pieces a .Pawn).testBit c.val <;>
    simp [hK, hQ, hB, hN, hR, hP]

-- ==========================================================================
-- Characterisation of `active_cell` and claim C7
-- ==========================================================================

theorem active_cell_loop_some_active (b : BitBoard) :
    ∀ (l : List Nat) (c : Cell),
      active_cell_loop b l = some c → cell_is_active b c = true := by
  intro l
  induction l with
  | nil => intro c h; simp [active_cell_loop] at h
  | cons ndx rest ih =>
    intro c h
    unfold active_cell_loop at h
    rcases hc : cellFromNat ndx with _ | c'
    · simp only [hc] at h
      exact Option.noConfusion h
    · simp only [hc] at h
      by_cases ha : cell_is_active b c' = true
      · rw [if_pos ha] at h
        obtain rfl : c' = c := by injection h
        exact ha
      · rw [if_neg ha] at h
        exact ih c h

theorem active_cell_loop_finds (b : BitBoard) (k : Nat) (hk : k < 64)
    (huniq : ∀ j, b.testBit j = true ↔ j = k) :
    ∀ l : List Nat, (∀ i ∈ l, i < 64) → k ∈ l →
      active_cell_loop b l = some ⟨k, hk⟩ := by
  intro l
  induction l with
  | nil => intro _ hmem; simp at hmem
  | cons ndx rest ih =>
    intro hall hmem
    have hndx : ndx < 64 := hall ndx (List.mem_cons_self _ _)
    have hcell : cellFromNat ndx = some ⟨ndx, hndx⟩ := by simp [cellFromNat, hndx]
    unfold active_cell_loop
    simp only [hcell]
    by_cases he : ndx = k
    · subst he
      have hact : cell_is_active b ⟨ndx, hndx⟩ = true := by
        rw [cell_is_active_eq_testBit]; exact (huniq ndx).mpr rfl
      simp [hact]
    · have hbit : b.testBit ndx = false := by
        cases hx : b.testBit ndx
        · rfl
        · exact absurd ((huniq ndx).mp hx) he
      have hact : cell_is_active b ⟨ndx, hndx⟩ = false := by
        rw [cell_is_active_eq_testBit]; exact hbit
      rw [if_neg (by simp [hact])]
      refine ih (fun i hi => hall i (List.mem_cons_of_mem _ hi)) ?_
      rcases List.mem_cons.mp hmem with h | h
      · exact absurd h.symm he
      · exact h

theorem active_cell_of_single_bit (k : Nat) (hk : k < 64) :
    active_cell (2 ^ k) = some ⟨k, hk⟩ := by
  have hp : pop_count (2 ^ k) = 1 := by
    unfold pop_count
    rw [pop_count_loop_eq_min, bitCount_two_pow]
    decide
  unfold active_cell
  rw [if_pos hp]
  exact active_cell_loop_finds (2 ^ k) k hk
    (fun j => by simp [Nat.testBit_two_pow, eq_comm])
    (List.range 64) (fun i hi => List.mem_range.mp hi) (List.mem_range.mpr hk)

/-- C7: on a `u64` state, `active_cell` returns `some c` iff the
population count is 1 and `c`'s bit is the set bit; for population count
0 or at least 2 it returns `none`. -/
theorem claim7_active_cell (b : BitBoard) (hb : b < 2 ^ 64) :
    ∀ c : Cell,
      (active_cell b = some c ↔ pop_count b = 1 ∧ b.testBit c.val = true) ∧
      ((pop_count b = 0 ∨ 2 ≤ pop_count b) → active_cell b = none) := by
  intro c
  constructor
  · constructor
    · intro h
      by_cases hp : pop_count b = 1
      · refine ⟨hp, ?_⟩
        unfold active_cell at h
        rw [if_pos hp] at h
        have := active_cell_loop_some_active b (List.range 64) c h
        rwa [cell_is_active_eq_testBit] at this
      · unfold active_cell at h
        rw [if_neg hp] at h
        exact absurd h (by simp)
    · rintro ⟨hp, htb⟩
      have hbc : bitCount b = 1 := by rw [← pop_count_eq_bitCount b hb]; exact hp
      obtain ⟨k, rfl⟩ := bitCount_eq_one b hbc
      have hkc : k = c.val := by
        rw [Nat.testBit_two_pow] at htb
        exact of_decide_eq_true htb
      subst hkc
      exact active_cell_of_single_bit c.val c.isLt
  · intro h
    unfold active_cell
    rw [if_neg (by omega)]

/-- Witness for C7 at the concrete board `0x8` (single bit on D1). -/
theorem claim7_witness :
    (8 : BitBoard) < 2 ^ 64 ∧
    (active_cell 8 = some cD1 ↔ pop_count 8 = 1 ∧ Nat.testBit 8 cD1.val = true) :=
  ⟨by norm_num, (claim7_active_cell 8 (by norm_num) cD1).1⟩

-- ==========================================================================
-- Claim C2: panic-freedom of `controlled_cells` / `possible_moves_...`
-- ==========================================================================

theorem active_cell_isSome_of_pop_count_one (b : BitBoard) (hb : b < 2 ^ 64)
    (hp : pop_count b = 1) : ∃ c : Cell, active_cell b = some c := by
  have hbc : bitCount b = 1 := by rw [← pop_count_eq_bitCount b hb]; exact hp
  obtain ⟨k, rfl⟩ := bitCount_eq_one b hbc
  have hk : k < 64 := by
    by_contra hge
    exact absurd hb (Nat.not_lt.mpr (Nat.pow_le_pow_right (by omega) (by omega)))
  exact ⟨⟨k, hk⟩, active_cell_of_single_bit k hk⟩

/-- Counterexample to C2 as stated: the publicly constructible army
`ChessArmy::new(White)` has an empty King bitboard, so `controlled_cells`
and the King branch of `possible_moves_for_piece_in_cell` hit the
`active_cell().unwrap()` panic (modelled by `none`). -/
theorem claim2_counterexample :
    controlled_cells (ChessArmy.new .White) 0 = none ∧
    possible_moves_for_piece_in_cell (ChessArmy.new .White) .King cE1 0 = none := by
  exact ⟨by decide, by decide⟩

/-- C2 (amended): for every army whose King bitboard is a `u64` state
with exactly one active cell — as `initial(colour)` guarantees and as the
documented one-King invariant requires — `controlled_cells` and
`possible_moves_for_piece_in_cell` return a bitboard without panicking. -/
theorem claim2_no_panic_with_king (a : ChessArmy) (intf_board : BitBoard)
    (hb : get_pieces a .King < 2 ^ 64)
    (hp : pop_count (get_pieces a .King) = 1) :
    (controlled_cells a intf_board).isSome = true ∧
    ∀ (cp : ChessPiece) (c : Cell),
      (possible_moves_for_piece_in_cell a cp c intf_board).isSome = true := by
  obtain ⟨kc, hkc⟩ := active_cell_isSome_of_pop_count_one _ hb hp
  have hking : king_controlled_cells a = some (neighbour kc) := by
    unfold king_controlled_cells get_king_position
    rw [hkc]; rfl
  constructor
  · unfold controlled_cells
    rw [hking]; rfl
  · intro cp c
    cases cp with
    | King =>
      unfold possible_moves_for_piece_in_cell possible_moves_for_king
      rw [hking]; rfl
    | Pawn => rfl
    | Queen =>
      show (possible_moves_for_regular_piece_in_cell a .Queen c intf_board).isSome = true
      unfold possible_moves_for_regular_piece_in_cell
      split <;> rfl
    | Bishop =>
      show (possible_moves_for_regular_piece_in_cell a .Bishop c intf_board).isSome = true
      unfold possible_moves_for_regular_piece_in_cell
      split <;> rfl
    | Knight =>
      show (possible_moves_for_regular_piece_in_cell a .Knight c intf_board).isSome = true
      unfold possible_moves_for_regular_piece_in_cell
      split <;> rfl
    | Rook =>
      show (possible_moves_for_regular_piece_in_cell a .Rook c intf_board).isSome = true
      unfold possible_moves_for_regular_piece_in_cell
      split <;> rfl

/-- Witness for C2 (amended) at the initial White army. -/
theorem claim2_witness :
    get_pieces (initial .White) .King < 2 ^ 64 ∧
    pop_count (get_pieces (initial .White) .King) = 1 ∧
    (controlled_cells (initial .White) 0).isSome = true :=
  ⟨by decide, by decide,
    (claim2_no_panic_with_king (initial .White) 0 (by decide) (by decide)).1⟩

-- ==========================================================================
-- Claim C3: empty result when the claimed piece is absent
-- ==========================================================================

theorem regular_moves_empty_when_absent (a : ChessArmy) (cp : ChessPiece)
    (c : Cell) (intf_board : BitBoard)
    (habs : cell_is_active (get_pieces a cp) c = false) :
    possible_moves_for_regular_piece_in_cell a cp c intf_board = some 0 := by
  unfold possible_moves_for_regular_piece_in_cell
  have hne : ¬ (get_piece_in_cell a c = some cp) := by
    intro h
    have := get_piece_active a c cp h
    rw [this] at habs
    exact Bool.noConfusion habs
  simp [hne]

/-- Counterexample to C3 as stated: an army with its (unique) king on E4
asked for King moves at the empty cell A1 returns the king's real move
set, not the empty bitboard — the King branch ignores the cell
argument. -/
theorem claim3_counterexample :
    cell_is_active (get_pieces (place_pieces (ChessArmy.new .White) .King [cE4]) .King)
      cA1 = false ∧
    possible_moves_for_piece_in_cell (place_pieces (ChessArmy.new .White) .King [cE4])
      .King cA1 0 ≠ some 0 := by
  exact ⟨by decide, by decide⟩

/-- C3 (amended): for every piece type other than King, if the army has
no piece of that type in the cell then `possible_moves_for_piece_in_cell`
returns the empty bitboard; the King branch instead ignores the cell
argument entirely. -/
theorem claim3_empty_when_absent (a : ChessArmy) (cp : ChessPiece) (c : Cell)
    (intf_board : BitBoard) (hne : cp ≠ ChessPiece.King)
    (habs : cell_is_active (get_pieces a cp) c = false) :
    possible_moves_for_piece_in_cell a cp c intf_board = some 0 := by
  cases cp with
  | King => exact absurd rfl hne
  | Pawn =>
    unfold possible_moves_for_piece_in_cell possible_moves_for_pawn_in_cell
    have hnp : ¬ (get_piece_in_cell a c = some .Pawn) := by
      intro h
      have := get_piece_active a c .Pawn h
      rw [this] at habs
      exact Bool.noConfusion habs
    simp [hnp]
  | Queen => exact regular_moves_empty_when_absent a .Queen c intf_board habs
  | Bishop => exact regular_moves_empty_when_absent a .Bishop c intf_board habs
  | Knight => exact regular_moves_empty_when_absent a .Knight c intf_board habs
  | Rook => exact regular_moves_empty_when_absent a .Rook c intf_board habs

/-- Witness for C3 (amended): the initial White army has no pawn on E4,
so asking for Pawn moves there yields the empty bitboard. -/
theorem claim3_witness :
    ChessPiece.Pawn ≠ ChessPiece.King ∧
    cell_is_active (get_pieces (initial .White) .Pawn) cE4 = false ∧
    possible_moves_for_piece_in_cell (initial .White) .Pawn cE4 0 = some 0 :=
  ⟨by decide, by decide,
    claim3_empty_when_absent (initial .White) .Pawn cE4 0 (by decide) (by decide)⟩


-- ==========================================================================
-- Claim C5: pawn possible moves
-- ==========================================================================

theorem from_cells_singleton (c : Cell) : from_cells [c] = 2 ^ c.val := by
  simp [from_cells, set_cell, Nat.one_shiftLeft]

theorem and_single_eq_zero_iff (b : Nat) (k : Nat) :
    (b &&& 2 ^ k = 0) ↔ b.testBit k = false := by
  rw [and_two_pow_eq]
  cases h : b.testBit k <;> simp [h, (Nat.two_pow_pos k).ne']

/-- The forward-push component of the pawn-move computation: the code's
sequential `set_cell` accumulation equals the spec's union of the free
one-step cell and the conditional free two-step cell. -/
theorem pawn_push_code_eq_spec (busy : BitBoard) (c : Cell)
    (fwd : Cell → Option Cell) (sr : Rank) :
    (match fwd c with
     | some tentative_cell =>
       if busy &&& from_cells [tentative_cell] = 0 then
         (if rank c = sr then
            match fwd tentative_cell with
            | some next_cell =>
              if busy &&& from_cells [next_cell] = 0 then
                set_cell (set_cell 0 tentative_cell) next_cell
              else set_cell 0 tentative_cell
            | none => set_cell 0 tentative_cell
          else set_cell 0 tentative_cell)
       else (0 : BitBoard)
     | none => (0 : BitBoard))
    = (match fwd c with
       | some t1 =>
         if busy.testBit t1.val then 0
         else
           single_cell t1 |||
           (if rank c = sr then
             match fwd t1 with
             | some t2 => if busy.testBit t2.val then 0 else single_cell t2
             | none => 0
           else 0)
       | none => (0 : BitBoard)) := by
  rcases hn : fwd c with _ | t1
  · rfl
  · simp only []
    by_cases hb1 : busy &&& from_cells [t1] = 0
    · have ht1 : busy.testBit t1.val = false := by
        rw [← and_single_eq_zero_iff, ← from_cells_singleton]
        exact hb1
      have ht1' : ¬(busy.testBit t1.val = true) := by simp [ht1]
      rw [if_pos hb1, if_neg ht1']
      by_cases hr : rank c = sr
      · rw [if_pos hr, if_pos hr]
        rcases hn2 : fwd t1 with _ | t2
        · simp [set_cell, single_cell]
        · simp only []
          by_cases hb2 : busy &&& from_cells [t2] = 0
          · have ht2' : ¬(busy.testBit t2.val = true) := by
              have ht2 : busy.testBit t2.val = false := by
                rw [← and_single_eq_zero_iff, ← from_cells_singleton]
                exact hb2
              simp [ht2]
            rw [if_pos hb2, if_neg ht2']
            simp [set_cell, single_cell, Nat.or_assoc]
          · have ht2 : busy.testBit t2.val = true := by
              rcases hx : busy.testBit t2.val
              · exfalso
                apply hb2
                rw [from_cells_singleton]
                exact (and_single_eq_zero_iff _ _).mpr hx
              · rfl
            rw [if_neg hb2, if_pos ht2]
            simp [set_cell, single_cell]
      · rw [if_neg hr, if_neg hr]
        simp [set_cell, single_cell]
    · have ht1 : busy.testBit t1.val = true := by
        rcases hx : busy.testBit t1.val
        · exfalso
          apply hb1
          rw [from_cells_singleton]
          exact (and_single_eq_zero_iff _ _).mpr hx
        · rfl
      rw [if_neg hb1, if_pos ht1]

/-- Modelled from the spec: a pawn's possible moves are the union of
(a) the one-step-forward cell when free of `occupied | interference`,
plus the two-step-forward cell when additionally the pawn stands on its
starting rank (rank 2 for White, rank 7 for Black) and that further cell
is also free, and (b) the pawn's diagonal controlled cells intersected
with the interference board.  White advances toward increasing rank,
Black toward decreasing rank. -/
def spec_pawn_moves (a : ChessArmy) (c : Cell) (intf_board : BitBoard) : BitBoard :=
  let busy := occupied_cells a ||| intf_board
  let fwd : Cell → Option Cell := match a.colour with | .White => n | .Black => s
  let start_rank : Rank := match a.colour with
    | .White => ⟨1, by omega⟩
    | .Black => ⟨6, by omega⟩
  let pushes :=
    match fwd c with
    | some t1 =>
      if busy.testBit t1.val then 0
      else
        single_cell t1 |||
        (if rank c = start_rank then
          match fwd t1 with
          | some t2 => if busy.testBit t2.val then 0 else single_cell t2
          | none => 0
        else 0)
    | none => 0
  pushes ||| (pawn_controlled_cells c a.colour &&& intf_board)

/-- C5: for an army holding a pawn at `c`, the pawn's possible moves are
exactly the spec's union of forward pushes (with the rank-2/rank-7
double-step rule) and diagonal captures into the interference board. -/
theorem claim5_pawn_moves (a : ChessArmy) (c : Cell) (intf_board : BitBoard)
    (h : get_piece_in_cell a c = some .Pawn) :
    possible_moves_for_piece_in_cell a .Pawn c intf_board =
      some (spec_pawn_moves a c intf_board) := by
  show some (possible_moves_for_pawn_in_cell a c intf_board) = _
  refine congrArg some ?_
  unfold possible_moves_for_pawn_in_cell
  rw [if_pos h]
  rcases hcol : a.colour with _ | _
  · show possible_moves_for_white_pawn_in_cell a c intf_board = _
    unfold possible_moves_for_white_pawn_in_cell spec_pawn_moves
    rw [hcol]
    exact congrArg₂ (fun x y : BitBoardState => x ||| y)
      (pawn_push_code_eq_spec (occupied_cells a ||| intf_board) c n ⟨1, by omega⟩)
      rfl
  · show possible_moves_for_black_pawn_in_cell a c intf_board = _
    unfold possible_moves_for_black_pawn_in_cell spec_pawn_moves
    rw [hcol]
    exact congrArg₂ (fun x y : BitBoardState => x ||| y)
      (pawn_push_code_eq_spec (occupied_cells a ||| intf_board) c s ⟨6, by omega⟩)
      rfl

/-- Witness for C5: a lone White pawn on E2 with an empty board has
possible moves exactly {E3, E4}. -/
theorem claim5_witness :
    get_piece_in_cell (place_pieces (ChessArmy.new .White) .Pawn [cE2]) cE2 =
      some .Pawn ∧
    possible_moves_for_piece_in_cell (place_pieces (ChessArmy.new .White) .Pawn [cE2])
      .Pawn cE2 0 = some (from_cells [cE3, cE4]) :=
  ⟨by decide,
    (claim5_pawn_moves (place_pieces (ChessArmy.new .White) .Pawn [cE2]) cE2 0
      (by decide)).trans (by decide)⟩

-- ==========================================================================
-- The piece-scan loops: the `remaining` countdown never changes the result
-- ==========================================================================

theorem foldl_scan_no_match (a : ChessArmy) (p : ChessPiece)
    (contrib : Cell → BitBoard) :
    ∀ (l : List Cell) (bb : BitBoard),
      (l.countP fun c => decide (get_piece_in_cell a c = some p)) = 0 →
      l.foldl (fun acc c =>
        if get_piece_in_cell a c = some p then acc ||| contrib c else acc) bb = bb := by
  intro l
  induction l with
  | nil => intro bb _; rfl
  | cons c rest ih =>
    intro bb h
    rw [List.countP_cons] at h
    have hm : ¬ (get_piece_in_cell a c = some p) := by
      intro hc
      simp [hc] at h
    rw [List.foldl_cons, if_neg hm]
    exact ih bb (by omega)

theorem piece_scan_eq_foldl (a : ChessArmy) (p : ChessPiece)
    (contrib : Cell → BitBoard) :
    ∀ (l : List Cell) (rem : Nat) (bb : BitBoard),
      (l.countP fun c => decide (get_piece_in_cell a c = some p)) ≤ rem →
      piece_scan a p contrib l rem bb =
        l.foldl (fun acc c =>
          if get_piece_in_cell a c = some p then acc ||| contrib c else acc) bb := by
  intro l
  induction l with
  | nil => intro rem bb _; rfl
  | cons c rest ih =>
    intro rem bb h
    rw [List.countP_cons] at h
    unfold piece_scan
    by_cases hrem : 0 < rem
    · rw [if_pos hrem]
      by_cases hm : get_piece_in_cell a c = some p
      · rw [if_pos hm, List.foldl_cons, if_pos hm]
        exact ih (rem - 1) (bb ||| contrib c) (by simp [hm] at h; omega)
      · rw [if_neg hm, List.foldl_cons, if_neg hm]
        exact ih rem bb (by simp [hm] at h; omega)
    · rw [if_neg hrem]
      have h0 : (List.countP (fun c => decide (get_piece_in_cell a c = some p))
          (c :: rest)) = 0 := by
        rw [List.countP_cons]; omega
      exact (foldl_scan_no_match a p contrib (c :: rest) bb h0).symm

theorem countP_le_pop_count (a : ChessArmy) (p : ChessPiece) (l : List Cell)
    (hsub : (l.map Fin.val).Sublist (List.range 64)) :
    (l.countP fun c => decide (get_piece_in_cell a c = some p)) ≤
      pop_count (get_pieces a p) := by
  have h1 : (l.countP fun c => decide (get_piece_in_cell a c = some p)) ≤
      l.countP fun c => (get_pieces a p).testBit c.val := by
    apply List.countP_mono_left
    intro c _ hc
    have h2 := get_piece_active a c p (of_decide_eq_true hc)
    rw [cell_is_active_eq_testBit] at h2
    exact h2
  have h2 : (l.countP fun c => (get_pieces a p).testBit c.val)
      = (l.map Fin.val).countP fun i => (get_pieces a p).testBit i := by
    rw [List.countP_map]; rfl
  have h3 : ((l.map Fin.val).countP fun i => (get_pieces a p).testBit i)
      ≤ (List.range 64).countP fun i => (get_pieces a p).testBit i :=
    hsub.countP_le _
  have h4 := countP_testBit_le_bitCount 64 (get_pieces a p)
  have h5 : ((List.range 64).countP fun i => (get_pieces a p).testBit i) ≤ 64 := by
    have h6 := List.countP_le_length
      (p := fun i => (get_pieces a p).testBit i) (l := List.range 64)
    simpa using h6
  exact le_pop_count_of_le_bitCount (by omega) (by omega)

theorem all_cells_map_val : all_cells.map Fin.val = List.range 64 :=
  List.map_coe_finRange 64

theorem all_cells_sub : (all_cells.map Fin.val).Sublist (List.range 64) := by
  rw [all_cells_map_val]

theorem pawn_cells_sub : (pawn_cells.map Fin.val).Sublist (List.range 64) := by
  unfold pawn_cells
  rw [List.map_take, List.map_drop, List.map_coe_finRange]
  exact (List.take_sublist _ _).trans (List.drop_sublist _ _)

theorem bishops_cc_eq_foldl (a : ChessArmy) (intf_board : BitBoard) :
    bishops_controlled_cells a intf_board =
      all_cells.foldl (fun acc c =>
        if get_piece_in_cell a c = some .Bishop then
          acc ||| bishop_rays (occupied_cells a ||| intf_board)
            (file c).val (rank c).val
        else acc) 0 :=
  piece_scan_eq_foldl a .Bishop _ all_cells _ 0
    (countP_le_pop_count a .Bishop all_cells all_cells_sub)

theorem rooks_cc_eq_foldl (a : ChessArmy) (intf_board : BitBoard) :
    rooks_controlled_cells a intf_board =
      all_cells.foldl (fun acc c =>
        if get_piece_in_cell a c = some .Rook then
          acc ||| rook_rays (occupied_cells a ||| intf_board)
            (file c).val (rank c).val
        else acc) 0 :=
  piece_scan_eq_foldl a .Rook _ all_cells _ 0
    (countP_le_pop_count a .Rook all_cells all_cells_sub)

theorem pawns_cc_eq_foldl (a : ChessArmy) :
    pawns_controlled_cells a =
      pawn_cells.foldl (fun acc c =>
        if get_piece_in_cell a c = some .Pawn then
          acc ||| pawn_controlled_cells c a.colour
        else acc) 0 :=
  piece_scan_eq_foldl a .Pawn _ pawn_cells _ 0
    (countP_le_pop_count a .Pawn pawn_cells pawn_cells_sub)

-- ==========================================================================
-- Claim C6: army-wide pawn controlled cells
-- ==========================================================================

/-- Modelled from the spec: the union, over every cell of the board
holding a pawn of the army, of the single-pawn controlled cells. -/
def spec_pawns_controlled (a : ChessArmy) : BitBoard :=
  all_cells.foldl (fun acc c =>
    if get_piece_in_cell a c = some .Pawn then
      acc ||| pawn_controlled_cells c a.colour
    else acc) 0

/-- Counterexample to C6 as stated: a (invalidly placed) White pawn on A1
is skipped by the scan, which only covers A2..H7, but the spec's union
over every board cell would give it the NE capture cell B2. -/
theorem claim6_counterexample :
    pawns_controlled_cells (place_pieces (ChessArmy.new .White) .Pawn [cA1]) ≠
      spec_pawns_controlled (place_pieces (ChessArmy.new .White) .Pawn [cA1]) := by
  decide

/-- C6 (amended): `pawns_controlled_cells` is the union over the cells
from A2 (included) to A8 (excluded) — i.e. ranks 2..7 — holding a pawn of
the single-pawn controlled cells; the single-pawn helper marks the
existing NW/NE neighbours for White and SW/SE for Black, an off-board
neighbour contributing nothing. -/
theorem claim6_pawns_controlled :
    (∀ a : ChessArmy,
      pawns_controlled_cells a =
        pawn_cells.foldl (fun acc c =>
          if get_piece_in_cell a c = some .Pawn then
            acc ||| pawn_controlled_cells c a.colour
          else acc) 0) ∧
    (∀ c : Cell,
      pawn_controlled_cells c .White =
        (match nw c with | some x => single_cell x | none => 0) |||
        (match ne c with | some x => single_cell x | none => 0) ∧
      pawn_controlled_cells c .Black =
        (match sw c with | some x => single_cell x | none => 0) |||
        (match se c with | some x => single_cell x | none => 0)) := by
  constructor
  · exact pawns_cc_eq_foldl
  · decide

-- ==========================================================================
-- Claim C4: ray-casting characterisation for sliding pieces
-- ==========================================================================

theorem ray_cast_testBit (busy : BitBoardState) (df dr : Int) :
    ∀ (fuel : Nat) (f r : Int) (i : Nat),
      ((ray_cast busy df dr fuel f r).testBit i = true ↔
        ∃ t : Nat, t < fuel ∧
          (∀ j : Nat, j ≤ t → 0 ≤ f + j * df ∧ f + j * df < 8 ∧
              0 ≤ r + j * dr ∧ r + j * dr < 8) ∧
          (∀ j : Nat, j < t →
            busy.testBit ((r + j * dr).toNat * 8 + (f + j * df).toNat) = false) ∧
          i = (r + t * dr).toNat * 8 + (f + t * df).toNat) := by
  intro fuel
  induction fuel with
  | zero =>
    intro f r i
    simp [ray_cast]
  | succ fuel ih =>
    intro f r i
    have z1 : f + ((0 : Nat) : Int) * df = f := by push_cast; ring
    have z2 : r + ((0 : Nat) : Int) * dr = r := by push_cast; ring
    have e1 : ∀ j : Nat, f + ((j + 1 : Nat) : Int) * df = f + df + (j : Int) * df := by
      intro j; push_cast; ring
    have e2 : ∀ j : Nat, r + ((j + 1 : Nat) : Int) * dr = r + dr + (j : Int) * dr := by
      intro j; push_cast; ring
    by_cases hin : 0 ≤ f ∧ f < 8 ∧ 0 ≤ r ∧ r < 8
    · unfold ray_cast
      rw [dif_pos hin]
      by_cases hbusy : busy.testBit (r.toNat * 8 + f.toNat) = true
      · rw [if_pos (show cell_is_active busy
            (to_cell ⟨Int.toNat f, by omega⟩ ⟨Int.toNat r, by omega⟩) = true from by
              rw [cell_is_active_eq_testBit]; exact hbusy)]
        rw [single_cell_eq, Nat.testBit_two_pow, decide_eq_true_eq]
        show r.toNat * 8 + f.toNat = i ↔ _
        constructor
        · intro hi
          refine ⟨0, by omega, ?_, ?_, ?_⟩
          · intro j hj
            obtain rfl : j = 0 := by omega
            rw [z1, z2]
            exact hin
          · intro j hj
            exact absurd hj (by omega)
          · rw [z1, z2]
            omega
        · rintro ⟨t, ht, hran, hbus, hi⟩
          rcases Nat.eq_zero_or_pos t with rfl | htpos
          · rw [z1, z2] at hi
            omega
          · exfalso
            have h0 := hbus 0 htpos
            rw [z1, z2] at h0
            rw [h0] at hbusy
            exact Bool.noConfusion hbusy
      · have hb' : busy.testBit (r.toNat * 8 + f.toNat) = false := by
          cases hx : busy.testBit (r.toNat * 8 + f.toNat)
          · rfl
          · exact absurd hx hbusy
        rw [if_neg (show ¬ (cell_is_active busy
            (to_cell ⟨Int.toNat f, by omega⟩ ⟨Int.toNat r, by omega⟩) = true) from by
              rw [cell_is_active_eq_testBit]; exact fun hx => hbusy hx)]
        rw [single_cell_eq, Nat.testBit_or, Nat.testBit_two_pow, Bool.or_eq_true,
          decide_eq_true_eq]
        rw [ih (f + df) (r + dr) i]
        constructor
        · rintro (hd | ⟨t, ht, hran, hbus, hi⟩)
          · refine ⟨0, by omega, ?_, ?_, ?_⟩
            · intro j hj
              obtain rfl : j = 0 := by omega
              rw [z1, z2]
              exact hin
            · intro j hj
              exact absurd hj (by omega)
            · rw [z1, z2]
              exact hd.symm
          · refine ⟨t + 1, by omega, ?_, ?_, ?_⟩
            · intro j hj
              rcases Nat.eq_zero_or_pos j with rfl | hjpos
              · rw [z1, z2]
                exact hin
              · obtain ⟨j', rfl⟩ : ∃ j', j = j' + 1 := ⟨j - 1, by omega⟩
                rw [e1 j', e2 j']
                exact hran j' (by omega)
            · intro j hj
              rcases Nat.eq_zero_or_pos j with rfl | hjpos
              · rw [z1, z2]
                exact hb'
              · obtain ⟨j', rfl⟩ : ∃ j', j = j' + 1 := ⟨j - 1, by omega⟩
                rw [e1 j', e2 j']
                exact hbus j' (by omega)
            · rw [e1 t, e2 t]
              exact hi
        · rintro ⟨t, ht, hran, hbus, hi⟩
          rcases Nat.eq_zero_or_pos t with rfl | htpos
          · left
            rw [z1, z2] at hi
            exact hi.symm
          · right
            obtain ⟨t', rfl⟩ : ∃ t', t = t' + 1 := ⟨t - 1, by omega⟩
            refine ⟨t', by omega, ?_, ?_, ?_⟩
            · intro j hj
              have := hran (j + 1) (by omega)
              rw [e1 j, e2 j] at this
              exact this
            · intro j hj
              have := hbus (j + 1) (by omega)
              rw [e1 j, e2 j] at this
              exact this
            · rw [e1 t', e2 t'] at hi
              exact hi
    · unfold ray_cast
      rw [dif_neg hin]
      rw [Nat.zero_testBit]
      constructor
      · intro h
        exact Bool.noConfusion h
      · rintro ⟨t, _, hran, _, _⟩
        have h0 := hran 0 (Nat.zero_le t)
        rw [z1, z2] at h0
        exact absurd h0 hin

/-- The eight sliding directions: four diagonal (bishop), four orthogonal
(rook). -/
def sliding_dirs : List (Int × Int) :=
  [(1, 1), (1, -1), (-1, 1), (-1, -1), (1, 0), (-1, 0), (0, 1), (0, -1)]

/-- A unit step direction that moves. -/
def dir_ok (d1 d2 : Int) : Prop :=
  (d1 = -1 ∨ d1 = 0 ∨ d1 = 1) ∧ (d2 = -1 ∨ d2 = 0 ∨ d2 = 1) ∧ ¬(d1 = 0 ∧ d2 = 0)

theorem dir_ok_of_mem (d1 d2 : Int) (h : (d1, d2) ∈ sliding_dirs) :
    dir_ok d1 d2 := by
  fin_cases h <;> norm_num [dir_ok]

theorem ray_step_facts (d1 d2 : Int) (hd : dir_ok d1 d2) (f0 r0 : Nat)
    (hf : f0 < 8) (hr : r0 < 8) (k : Nat)
    (hink : 0 ≤ (f0 : Int) + k * d1 ∧ (f0 : Int) + k * d1 < 8 ∧
            0 ≤ (r0 : Int) + k * d2 ∧ (r0 : Int) + k * d2 < 8) :
    k ≤ 7 ∧ (∀ j : Nat, j ≤ k →
      0 ≤ (f0 : Int) + j * d1 ∧ (f0 : Int) + j * d1 < 8 ∧
      0 ≤ (r0 : Int) + j * d2 ∧ (r0 : Int) + j * d2 < 8) := by
  obtain ⟨h1, h2, hnz⟩ := hd
  obtain ⟨hA, hB, hC, hD⟩ := hink
  rcases h1 with rfl | rfl | rfl <;> rcases h2 with rfl | rfl | rfl <;>
    first
      | exact absurd (⟨rfl, rfl⟩ : (0 : Int) = 0 ∧ (0 : Int) = 0) hnz
      | exact ⟨by omega, fun j hj => ⟨by omega, by omega, by omega, by omega⟩⟩

theorem ray_step_inj (d1 d2 : Int) (hd : dir_ok d1 d2) (f0 r0 : Nat) (m k : Nat)
    (hm : 0 ≤ (f0 : Int) + m * d1 ∧ (f0 : Int) + m * d1 < 8 ∧
          0 ≤ (r0 : Int) + m * d2 ∧ (r0 : Int) + m * d2 < 8)
    (hk : 0 ≤ (f0 : Int) + k * d1 ∧ (f0 : Int) + k * d1 < 8 ∧
          0 ≤ (r0 : Int) + k * d2 ∧ (r0 : Int) + k * d2 < 8)
    (heq : ((r0 : Int) + m * d2).toNat * 8 + ((f0 : Int) + m * d1).toNat =
           ((r0 : Int) + k * d2).toNat * 8 + ((f0 : Int) + k * d1).toNat) :
    m = k := by
  obtain ⟨h1, h2, hnz⟩ := hd
  obtain ⟨hA, hB, hC, hD⟩ := hm
  obtain ⟨hE, hF, hG, hH⟩ := hk
  rcases h1 with rfl | rfl | rfl <;> rcases h2 with rfl | rfl | rfl <;>
    first
      | exact absurd (⟨rfl, rfl⟩ : (0 : Int) = 0 ∧ (0 : Int) = 0) hnz
      | omega

/-- A ray cast started one step away from (`f0`, `r0`) in a unit direction
marks the in-board cell reached after `k` steps iff no strictly earlier
stepped-to cell is active in `busy`: the ray marks cells in step order and
stops immediately after the first blocker, which is itself marked, with no
cell beyond it marked. -/
theorem ray_cast_marks_iff (busy : BitBoardState) (d1 d2 : Int)
    (hd : dir_ok d1 d2) (f0 r0 : Nat) (hf : f0 < 8) (hr : r0 < 8)
    (k : Nat) (hk : 1 ≤ k)
    (hink : 0 ≤ (f0 : Int) + k * d1 ∧ (f0 : Int) + k * d1 < 8 ∧
            0 ≤ (r0 : Int) + k * d2 ∧ (r0 : Int) + k * d2 < 8) :
    ((ray_cast busy d1 d2 8 ((f0 : Int) + d1) ((r0 : Int) + d2)).testBit
        (((r0 : Int) + k * d2).toNat * 8 + ((f0 : Int) + k * d1).toNat) = true ↔
      ∀ j : Nat, 1 ≤ j → j < k →
        busy.testBit (((r0 : Int) + j * d2).toNat * 8 +
          ((f0 : Int) + j * d1).toNat) = false) := by
  obtain ⟨hk7, hall⟩ := ray_step_facts d1 d2 hd f0 r0 hf hr k hink
  have et1 : ∀ m : Nat, ((f0 : Int) + d1) + m * d1 = (f0 : Int) + ((m + 1 : Nat) : Int) * d1 := by
    intro m; push_cast; ring
  have et2 : ∀ m : Nat, ((r0 : Int) + d2) + m * d2 = (r0 : Int) + ((m + 1 : Nat) : Int) * d2 := by
    intro m; push_cast; ring
  rw [ray_cast_testBit]
  constructor
  · rintro ⟨t, ht, hran, hbus, hi⟩ j h1j hjk
    have hrant := hran t (Nat.le_refl t)
    rw [et1 t, et2 t] at hrant
    rw [et1 t, et2 t] at hi
    have htk : t + 1 = k :=
      ray_step_inj d1 d2 hd f0 r0 (t + 1) k hrant hink hi.symm
    have hj1 : j - 1 < t := by omega
    have := hbus (j - 1) hj1
    rw [et1 (j - 1), et2 (j - 1)] at this
    have hjj : j - 1 + 1 = j := by omega
    rw [hjj] at this
    exact this
  · intro hnb
    refine ⟨k - 1, by omega, ?_, ?_, ?_⟩
    · intro j hj
      have := hall (j + 1) (by omega)
      rw [et1 j, et2 j]
      exact this
    · intro j hj
      have := hnb (j + 1) (by omega) (by omega)
      rw [et1 j, et2 j]
      exact this
    · rw [et1 (k - 1), et2 (k - 1)]
      have hkk : k - 1 + 1 = k := by omega
      rw [hkk]

/-- C4: `bishops_controlled_cells` (resp. `rooks_controlled_cells`) is the
union, over the cells reported to hold a bishop (rook), of the four
diagonal (orthogonal) ray casts against `occupied_cells() |
interference`; and each such ray marks the cell reached after `k` steps
iff every strictly earlier stepped-to cell is free, so the first busy
cell is the last one marked in its direction. -/
theorem claim4_sliding_ray_casting :
    (∀ (a : ChessArmy) (intf_board : BitBoard),
      bishops_controlled_cells a intf_board =
        all_cells.foldl (fun acc c =>
          if get_piece_in_cell a c = some .Bishop then
            acc ||| bishop_rays (occupied_cells a ||| intf_board)
              (file c).val (rank c).val
          else acc) 0 ∧
      rooks_controlled_cells a intf_board =
        all_cells.foldl (fun acc c =>
          if get_piece_in_cell a c = some .Rook then
            acc ||| rook_rays (occupied_cells a ||| intf_board)
              (file c).val (rank c).val
          else acc) 0) ∧
    (∀ (busy : BitBoardState) (d1 d2 : Int), (d1, d2) ∈ sliding_dirs →
      ∀ (c : Cell) (k : Nat), 1 ≤ k →
      (0 ≤ ((file c).val : Int) + k * d1 ∧ ((file c).val : Int) + k * d1 < 8 ∧
       0 ≤ ((rank c).val : Int) + k * d2 ∧ ((rank c).val : Int) + k * d2 < 8) →
      ((ray_cast busy d1 d2 8 (((file c).val : Int) + d1)
          (((rank c).val : Int) + d2)).testBit
          ((((rank c).val : Int) + k * d2).toNat * 8 +
           (((file c).val : Int) + k * d1).toNat) = true ↔
        ∀ j : Nat, 1 ≤ j → j < k →
          busy.testBit ((((rank c).val : Int) + j * d2).toNat * 8 +
            (((file c).val : Int) + j * d1).toNat) = false)) :=
  ⟨fun a intf_board => ⟨bishops_cc_eq_foldl a intf_board, rooks_cc_eq_foldl a intf_board⟩,
   fun busy d1 d2 hmem c k hk hin =>
     ray_cast_marks_iff busy d1 d2 (dir_ok_of_mem d1 d2 hmem)
       (file c).val (rank c).val (file c).isLt (rank c).isLt k hk hin⟩

/-- Witness for C4: the NE diagonal ray from A1 over an empty busy board
reaches C3 (two steps) iff B2 is free — both sides evaluate to true. -/
theorem claim4_witness :
    ((1, 1) ∈ sliding_dirs ∧ 1 ≤ 2) ∧
    ((ray_cast 0 1 1 8 (((file cA1).val : Int) + 1) (((rank cA1).val : Int) + 1)).testBit
        ((((rank cA1).val : Int) + 2 * 1).toNat * 8 +
         (((file cA1).val : Int) + 2 * 1).toNat) = true ↔
      ∀ j : Nat, 1 ≤ j → j < 2 →
        Nat.testBit 0 ((((rank cA1).val : Int) + j * 1).toNat * 8 +
          (((file cA1).val : Int) + j * 1).toNat) = false) :=
  ⟨⟨by decide, by decide⟩,
    claim4_sliding_ray_casting.2 0 1 1 (by decide) cA1 2 (by decide) (by decide)⟩

-- ==========================================================================
-- Claim C1: queens via the piece-substitution trick
-- ==========================================================================

theorem testBit_eq_false_of_and_eq_zero (x y : Nat) (h : x &&& y = 0) (i : Nat)
    (hx : x.testBit i = true) : y.testBit i = false := by
  cases hy : y.testBit i
  · rfl
  · have hc : (x &&& y).testBit i = true := by
      rw [Nat.testBit_and, hx, hy]; rfl
    rw [h, Nat.zero_testBit] at hc
    exact Bool.noConfusion hc

theorem cell_is_active_zero (c : Cell) : cell_is_active 0 c = false := by
  simp [cell_is_active]

/-- The intermediate state of `queens_controlled_cells` used for the
diagonal pass: bishops and rooks folded into the pawn slot, queens
relabelled as bishops, queen slot emptied. -/
def queens_fake_bishop_army (a : ChessArmy) : ChessArmy :=
  { colour := a.colour
    pieces_bmask := fun cp =>
      match cp with
      | .Pawn => get_pieces a .Pawn ||| get_pieces a .Bishop ||| get_pieces a .Rook
      | .Bishop => get_pieces a .Queen
      | .Queen => 0
      | .King => get_pieces a .King
      | .Knight => get_pieces a .Knight
      | .Rook => get_pieces a .Rook }

/-- The second intermediate state of `queens_controlled_cells`, for the
orthogonal pass: queens relabelled as rooks, bishop slot emptied. -/
def queens_fake_rook_army (a : ChessArmy) : ChessArmy :=
  { colour := a.colour
    pieces_bmask := fun cp =>
      match cp with
      | .Pawn => get_pieces a .Pawn ||| get_pieces a .Bishop ||| get_pieces a .Rook
      | .Bishop => 0
      | .Queen => 0
      | .King => get_pieces a .King
      | .Knight => get_pieces a .Knight
      | .Rook => get_pieces a .Queen }

theorem queens_cc_unfolded (a : ChessArmy) (intf_board : BitBoard) :
    queens_controlled_cells a intf_board =
      bishops_controlled_cells (queens_fake_bishop_army a) intf_board |||
      rooks_controlled_cells (queens_fake_rook_army a) intf_board := rfl

/-- Modelled from the spec: a lone army holding only one piece-type
bitboard (used for "an equivalent lone bishop / lone rook placed on
exactly the queen's cells"). -/
def lone_army (p : ChessPiece) (bb : BitBoard) (ac : ArmyColour) : ChessArmy :=
  { colour := ac
    pieces_bmask := fun q => if q = p then bb else 0 }

theorem occ_fake_bishop (a : ChessArmy) :
    occupied_cells (queens_fake_bishop_army a) = occupied_cells a := by
  apply Nat.eq_of_testBit_eq
  intro i
  simp only [occupied_cells, get_pieces, queens_fake_bishop_army,
    Nat.testBit_or, Nat.zero_testBit]
  rcases (a.pieces_bmask ChessPiece.King).testBit i <;>
  rcases (a.pieces_bmask ChessPiece.Queen).testBit i <;>
  rcases (a.pieces_bmask ChessPiece.Pawn).testBit i <;>
  rcases (a.pieces_bmask ChessPiece.Bishop).testBit i <;>
  rcases (a.pieces_bmask ChessPiece.Knight).testBit i <;>
  rcases (a.pieces_bmask ChessPiece.Rook).testBit i <;> rfl

theorem occ_fake_rook (a : ChessArmy) :
    occupied_cells (queens_fake_rook_army a) = occupied_cells a := by
  apply Nat.eq_of_testBit_eq
  intro i
  simp only [occupied_cells, get_pieces, queens_fake_rook_army,
    Nat.testBit_or, Nat.zero_testBit]
  rcases (a.pieces_bmask ChessPiece.King).testBit i <;>
  rcases (a.pieces_bmask ChessPiece.Queen).testBit i <;>
  rcases (a.pieces_bmask ChessPiece.Pawn).testBit i <;>
  rcases (a.pieces_bmask ChessPiece.Bishop).testBit i <;>
  rcases (a.pieces_bmask ChessPiece.Knight).testBit i <;>
  rcases (a.pieces_bmask ChessPiece.Rook).testBit i <;> rfl

theorem occ_lone (p : ChessPiece) (bb : BitBoard) (ac : ArmyColour) :
    occupied_cells (lone_army p bb ac) = bb := by
  cases p <;>
    simp [occupied_cells, get_pieces, lone_army]

theorem queen_absorb (a : ChessArmy) (intf_board : BitBoard) :
    get_pieces a .Queen ||| (occupied_cells a ||| intf_board) =
      occupied_cells a ||| intf_board := by
  apply Nat.eq_of_testBit_eq
  intro i
  simp only [occupied_cells, get_pieces, Nat.testBit_or]
  rcases (a.pieces_bmask ChessPiece.King).testBit i <;>
  rcases (a.pieces_bmask ChessPiece.Queen).testBit i <;>
  rcases (a.pieces_bmask ChessPiece.Pawn).testBit i <;>
  rcases (a.pieces_bmask ChessPiece.Bishop).testBit i <;>
  rcases (a.pieces_bmask ChessPiece.Knight).testBit i <;>
  rcases (a.pieces_bmask ChessPiece.Rook).testBit i <;>
  rcases intf_board.testBit i <;> rfl

theorem foldl_scan_congr {P Q : Cell → Prop} [DecidablePred P] [DecidablePred Q]
    {f g : Cell → BitBoard}
    (hPQ : ∀ c, P c ↔ Q c) (hfg : ∀ c, f c = g c) :
    ∀ (l : List Cell) (bb : BitBoard),
      l.foldl (fun acc c => if P c then acc ||| f c else acc) bb =
      l.foldl (fun acc c => if Q c then acc ||| g c else acc) bb := by
  intro l
  induction l with
  | nil => intro bb; rfl
  | cons c rest ih =>
    intro bb
    rw [List.foldl_cons, List.foldl_cons]
    by_cases hc : P c
    · rw [if_pos hc, if_pos ((hPQ c).mp hc), hfg c]
      exact ih _
    · rw [if_neg hc, if_neg (fun hq => hc ((hPQ c).mpr hq))]
      exact ih _

theorem bishops_cc_canonical (b : ChessArmy) (intf_board : BitBoard)
    (hQ0 : get_pieces b .Queen = 0)
    (hKd : get_pieces b .Bishop &&& get_pieces b .King = 0) :
    bishops_controlled_cells b intf_board =
      all_cells.foldl (fun acc c =>
        if cell_is_active (get_pieces b .Bishop) c = true then
          acc ||| bishop_rays (occupied_cells b ||| intf_board)
            (file c).val (rank c).val
        else acc) 0 := by
  rw [bishops_cc_eq_foldl]
  refine foldl_scan_congr ?_ (fun c => rfl) all_cells 0
  intro c
  constructor
  · intro h
    exact get_piece_active b c .Bishop h
  · intro h
    have hKf : cell_is_active (get_pieces b .King) c = false := by
      rw [cell_is_active_eq_testBit] at h ⊢
      exact testBit_eq_false_of_and_eq_zero _ _ hKd c.val h
    have hQf : cell_is_active (get_pieces b .Queen) c = false := by
      rw [hQ0]; exact cell_is_active_zero c
    unfold get_piece_in_cell
    rw [if_neg (by simp [hKf]), if_neg (by simp [hQf]), if_pos h]

theorem rooks_cc_canonical (b : ChessArmy) (intf_board : BitBoard)
    (hQ0 : get_pieces b .Queen = 0)
    (hB0 : get_pieces b .Bishop = 0)
    (hKd : get_pieces b .Rook &&& get_pieces b .King = 0)
    (hNd : get_pieces b .Rook &&& get_pieces b .Knight = 0) :
    rooks_controlled_cells b intf_board =
      all_cells.foldl (fun acc c =>
        if cell_is_active (get_pieces b .Rook) c = true then
          acc ||| rook_rays (occupied_cells b ||| intf_board)
            (file c).val (rank c).val
        else acc) 0 := by
  rw [rooks_cc_eq_foldl]
  refine foldl_scan_congr ?_ (fun c => rfl) all_cells 0
  intro c
  constructor
  · intro h
    exact get_piece_active b c .Rook h
  · intro h
    have hKf : cell_is_active (get_pieces b .King) c = false := by
      rw [cell_is_active_eq_testBit] at h ⊢
      exact testBit_eq_false_of_and_eq_zero _ _ hKd c.val h
    have hNf : cell_is_active (get_pieces b .Knight) c = false := by
      rw [cell_is_active_eq_testBit] at h ⊢
      exact testBit_eq_false_of_and_eq_zero _ _ hNd c.val h
    have hQf : cell_is_active (get_pieces b .Queen) c = false := by
      rw [hQ0]; exact cell_is_active_zero c
    have hBf : cell_is_active (get_pieces b .Bishop) c = false := by
      rw [hB0]; exact cell_is_active_zero c
    unfold get_piece_in_cell
    rw [if_neg (by simp [hKf]), if_neg (by simp [hQf]), if_neg (by simp [hBf]),
      if_neg (by simp [hNf]), if_pos h]

theorem foldl_scan_shift {P : Cell → Prop} [DecidablePred P] (f : Cell → BitBoard) :
    ∀ (l : List Cell) (bb : BitBoard),
      l.foldl (fun acc c => if P c then acc ||| f c else acc) bb =
      bb ||| l.foldl (fun acc c => if P c then acc ||| f c else acc) 0 := by
  intro l
  induction l with
  | nil => intro bb; rw [List.foldl_nil, List.foldl_nil, Nat.or_zero]
  | cons c rest ih =>
    intro bb
    rw [List.foldl_cons, List.foldl_cons, ih ((if P c then bb ||| f c else bb)),
      ih ((if P c then 0 ||| f c else 0))]
    by_cases hc : P c
    · rw [if_pos hc, if_pos hc, Nat.zero_or, Nat.or_assoc]
    · rw [if_neg hc, if_neg hc, Nat.zero_or]

theorem foldl_scan_split {P : Cell → Prop} [DecidablePred P]
    (f g : Cell → BitBoard) :
    ∀ l : List Cell,
      l.foldl (fun acc c => if P c then acc ||| (f c ||| g c) else acc) 0 =
      l.foldl (fun acc c => if P c then acc ||| f c else acc) 0 |||
      l.foldl (fun acc c => if P c then acc ||| g c else acc) 0 := by
  intro l
  induction l with
  | nil =>
    rw [List.foldl_nil, List.foldl_nil, List.foldl_nil, Nat.or_zero]
  | cons c rest ih =>
    rw [List.foldl_cons, List.foldl_cons, List.foldl_cons,
      foldl_scan_shift (fun c => f c ||| g c) rest,
      foldl_scan_shift f rest, foldl_scan_shift g rest, ih]
    by_cases hc : P c
    · rw [if_pos hc, if_pos hc, if_pos hc, Nat.zero_or, Nat.zero_or, Nat.zero_or]
      apply Nat.eq_of_testBit_eq
      intro i
      simp only [Nat.testBit_or]
      rcases (f c).testBit i <;>
      rcases (g c).testBit i <;>
      rcases (rest.foldl (fun acc c => if P c then acc ||| f c else acc) 0).testBit i <;>
      rcases (rest.foldl (fun acc c => if P c then acc ||| g c else acc) 0).testBit i <;>
        rfl
    · rw [if_neg hc, if_neg hc, if_neg hc, Nat.zero_or, Nat.zero_or, Nat.zero_or]

/-- Modelled from the spec: an independent 8-direction ray cast (four
diagonal plus four orthogonal rays) from each cell holding a queen,
blocked by `occupied_cells() | interference`. -/
def queen_ray_union (a : ChessArmy) (intf_board : BitBoard) : BitBoard :=
  all_cells.foldl (fun acc c =>
    if cell_is_active (get_pieces a .Queen) c = true then
      acc ||| (bishop_rays (occupied_cells a ||| intf_board)
                 (file c).val (rank c).val |||
               rook_rays (occupied_cells a ||| intf_board)
                 (file c).val (rank c).val)
    else acc) 0

/-- C1 (amended): when the queens' bitboard is disjoint from the king and
knight bitboards (as the documented non-overlap invariant guarantees),
the piece-substitution trick computes exactly the union of a lone
bishop's and a lone rook's controlled cells placed on the queen's cells
with blocking occupancy `occupied_cells() | interference`, i.e. the
independent 8-direction ray cast from each queen cell. -/
theorem claim1_queen_decomposition (a : ChessArmy) (intf_board : BitBoard)
    (hK : get_pieces a .Queen &&& get_pieces a .King = 0)
    (hN : get_pieces a .Queen &&& get_pieces a .Knight = 0) :
    queens_controlled_cells a intf_board =
      bishops_controlled_cells
        (lone_army .Bishop (get_pieces a .Queen) a.colour)
        (occupied_cells a ||| intf_board) |||
      rooks_controlled_cells
        (lone_army .Rook (get_pieces a .Queen) a.colour)
        (occupied_cells a ||| intf_board) ∧
    queens_controlled_cells a intf_board = queen_ray_union a intf_board := by
  have hslotB : get_pieces (queens_fake_bishop_army a) ChessPiece.Bishop
      = get_pieces a ChessPiece.Queen := rfl
  have hslotR : get_pieces (queens_fake_rook_army a) ChessPiece.Rook
      = get_pieces a ChessPiece.Queen := rfl
  have hLb : bishops_controlled_cells (queens_fake_bishop_army a) intf_board
      = all_cells.foldl (fun acc c =>
          if cell_is_active (get_pieces a .Queen) c = true then
            acc ||| bishop_rays (occupied_cells a ||| intf_board)
              (file c).val (rank c).val
          else acc) 0 := by
    rw [bishops_cc_canonical (queens_fake_bishop_army a) intf_board rfl hK]
    simp only [occ_fake_bishop, hslotB]
  have hLr : rooks_controlled_cells (queens_fake_rook_army a) intf_board
      = all_cells.foldl (fun acc c =>
          if cell_is_active (get_pieces a .Queen) c = true then
            acc ||| rook_rays (occupied_cells a ||| intf_board)
              (file c).val (rank c).val
          else acc) 0 := by
    rw [rooks_cc_canonical (queens_fake_rook_army a) intf_board rfl rfl hK hN]
    simp only [occ_fake_rook, hslotR]
  have hloneB_self : get_pieces (lone_army .Bishop (get_pieces a .Queen) a.colour)
      ChessPiece.Bishop = get_pieces a .Queen := by simp [lone_army, get_pieces]
  have hloneB_king : get_pieces (lone_army .Bishop (get_pieces a .Queen) a.colour)
      ChessPiece.King = 0 := by simp [lone_army, get_pieces]
  have hloneB_queen : get_pieces (lone_army .Bishop (get_pieces a .Queen) a.colour)
      ChessPiece.Queen = 0 := by simp [lone_army, get_pieces]
  have hRb : bishops_controlled_cells
      (lone_army .Bishop (get_pieces a .Queen) a.colour)
      (occupied_cells a ||| intf_board)
      = all_cells.foldl (fun acc c =>
          if cell_is_active (get_pieces a .Queen) c = true then
            acc ||| bishop_rays (occupied_cells a ||| intf_board)
              (file c).val (rank c).val
          else acc) 0 := by
    rw [bishops_cc_canonical _ _ hloneB_queen
      (by rw [hloneB_king, hloneB_self]; exact Nat.and_zero _)]
    simp only [hloneB_self, occ_lone, queen_absorb]
  have hloneR_self : get_pieces (lone_army .Rook (get_pieces a .Queen) a.colour)
      ChessPiece.Rook = get_pieces a .Queen := by simp [lone_army, get_pieces]
  have hloneR_king : get_pieces (lone_army .Rook (get_pieces a .Queen) a.colour)
      ChessPiece.King = 0 := by simp [lone_army, get_pieces]
  have hloneR_queen : get_pieces (lone_army .Rook (get_pieces a .Queen) a.colour)
      ChessPiece.Queen = 0 := by simp [lone_army, get_pieces]
  have hloneR_bishop : get_pieces (lone_army .Rook (get_pieces a .Queen) a.colour)
      ChessPiece.Bishop = 0 := by simp [lone_army, get_pieces]
  have hloneR_knight : get_pieces (lone_army .Rook (get_pieces a .Queen) a.colour)
      ChessPiece.Knight = 0 := by simp [lone_army, get_pieces]
  have hRr : rooks_controlled_cells
      (lone_army .Rook (get_pieces a .Queen) a.colour)
      (occupied_cells a ||| intf_board)
      = all_cells.foldl (fun acc c =>
          if cell_is_active (get_pieces a .Queen) c = true then
            acc ||| rook_rays (occupied_cells a ||| intf_board)
              (file c).val (rank c).val
          else acc) 0 := by
    rw [rooks_cc_canonical _ _ hloneR_queen hloneR_bishop
      (by rw [hloneR_king, hloneR_self]; exact Nat.and_zero _)
      (by rw [hloneR_knight, hloneR_self]; exact Nat.and_zero _)]
    simp only [hloneR_self, occ_lone, queen_absorb]
  constructor
  · rw [queens_cc_unfolded, hLb, hLr, hRb, hRr]
  · rw [queens_cc_unfolded, hLb, hLr]
    unfold queen_ray_union
    rw [foldl_scan_split
      (fun c => bishop_rays (occupied_cells a ||| intf_board)
        (file c).val (rank c).val)
      (fun c => rook_rays (occupied_cells a ||| intf_board)
        (file c).val (rank c).val)
      all_cells]

/-- An army with a queen placed on the same cell as the king (an
invariant-violating but publicly constructible state). -/
def c1_overlap_army : ChessArmy :=
  place_pieces (place_pieces (ChessArmy.new .White) .King [cD1]) .Queen [cD1]

/-- Counterexample to C1 as stated for every army: with a queen on the
king's cell, `get_piece_in_cell` reports King, the scan skips the queen
and `queens_controlled_cells` is empty, while the lone bishop and rook on
the same cells control a nonempty set. -/
theorem claim1_counterexample :
    ¬ (queens_controlled_cells c1_overlap_army 0 =
        bishops_controlled_cells
          (lone_army .Bishop (get_pieces c1_overlap_army .Queen)
            c1_overlap_army.colour)
          (occupied_cells c1_overlap_army ||| 0) |||
        rooks_controlled_cells
          (lone_army .Rook (get_pieces c1_overlap_army .Queen)
            c1_overlap_army.colour)
          (occupied_cells c1_overlap_army ||| 0)) := by
  decide

/-- Witness for C1 (amended) at the initial White army. -/
theorem claim1_witness :
    (get_pieces (initial .White) .Queen &&& get_pieces (initial .White) .King = 0 ∧
     get_pieces (initial .White) .Queen &&& get_pieces (initial .White) .Knight = 0) ∧
    queens_controlled_cells (initial .White) 0 =
      bishops_controlled_cells
        (lone_army .Bishop (get_pieces (initial .White) .Queen)
          (initial .White).colour)
        (occupied_cells (initial .White) ||| 0) |||
      rooks_controlled_cells
        (lone_army .Rook (get_pieces (initial .White) .Queen)
          (initial .White).colour)
        (occupied_cells (initial .White) ||| 0) :=
  ⟨⟨by decide, by decide⟩,
    (claim1_queen_decomposition (initial .White) 0 (by decide) (by decide)).1⟩
